import Mathlib

/-!
Verification of the correlation-propagation engine of `fouriever/intercorr.py`.

The engine lives in `data.add_vis2cov`, `data.add_t3cov` and `data.add_cov`:

* `add_vis2cov` builds, per file, `cor = np.diag(np.ones(Nwave*Nbase))` and,
  per exposure, `cov = np.multiply(cor, u[:, None] * u[None, :])` where `u`
  is the flattened uncertainty array `dvis2`.
* `add_t3cov` builds a block transform `trafo` from the incidence matrix
  `t3mat` (the `Nwave×Nwave` sub-block at block position `(k, l)` is
  `np.diag(np.ones(Nwave)) * t3mat[k, l]`), then
  `cor = np.dot(trafo, np.dot(np.diag(np.ones(Nwave*Nbase)), trafo.T))/3.`
  and the same per-exposure Hadamard assembly with `dt3`.
* `add_cov` calls `add_vis2cov`, then temporarily redirects `self.idir` to
  the output directory around the call to `add_t3cov`, restoring it after.

Matrices are embedded as a shape `(rows, cols)` together with a total entry
function `Nat → Nat → ℚ`; entries outside the shape are junk, and every
statement quantifies only over in-range indices.  `np.multiply` is embedded
with numpy's broadcasting rule for 2-D operands (a pair of axis lengths is
compatible when the lengths agree or one of them is `1`); mismatching,
non-broadcastable shapes raise, which the embedding renders as `Except`.
-/

/-- A 2-D real array as numpy holds it: a shape and an entry function.
Entries are rationals (the float values produced by the code on the inputs
considered here are exact dyadic/ternary rationals, so ℚ models them
without rounding). -/
@[ext]
structure Mat where
  rows : Nat
  cols : Nat
  entry : Nat → Nat → ℚ

/-- `np.diag(np.ones(n))`: the `n×n` identity matrix.  This is the whole of
the spec's `IdentityCorrelationModel` (line 151 / line 209 of
`intercorr.py`). -/
def diagOnes (n : Nat) : Mat :=
  ⟨n, n, fun i j => if i = j then 1 else 0⟩

/-- `np.dot` for 2-D arrays: matrix product, summing over the left factor's
column count (the code only ever calls it with matching inner dimensions). -/
def npDot (A B : Mat) : Mat :=
  ⟨A.rows, B.cols, fun i j => ∑ m in Finset.range A.cols, A.entry i m * B.entry m j⟩

/-- `A.T`: transpose. -/
def npT (A : Mat) : Mat :=
  ⟨A.cols, A.rows, fun i j => A.entry j i⟩

/-- Division of every entry by a scalar, as in `... / 3.`. -/
def matDiv (A : Mat) (c : ℚ) : Mat :=
  ⟨A.rows, A.cols, fun i j => A.entry i j / c⟩

/-- Broadcast length of one axis pair under numpy's rule: equal lengths, or
one of them `1`. `none` means the operands cannot be broadcast together. -/
def bcastDim (n m : Nat) : Option Nat :=
  if n = m then some n else if n = 1 then some m else if m = 1 then some n else none

/-- Index into an axis of length `n` after broadcasting: a length-1 axis is
read at `0` whatever the broadcast position. -/
def bcastIdx (n i : Nat) : Nat :=
  if n = 1 then 0 else i

/-- `np.multiply` on two 2-D arrays, with numpy broadcasting; raises
(`Except.error`) when the shapes are not broadcastable. -/
def npMultiply (A B : Mat) : Except String Mat :=
  match bcastDim A.rows B.rows, bcastDim A.cols B.cols with
  | some r, some c =>
      .ok ⟨r, c, fun i j =>
        A.entry (bcastIdx A.rows i) (bcastIdx A.cols j) *
        B.entry (bcastIdx B.rows i) (bcastIdx B.cols j)⟩
  | _, _ => .error "operands could not be broadcast together"

/-- `u[:, None] * u[None, :]` for a flattened vector `u`: the outer product,
an `len(u) × len(u)` array. -/
def outerFlat (u : List ℚ) : Mat :=
  ⟨u.length, u.length, fun i j => u.getD i 0 * u.getD j 0⟩

/-- One per-exposure covariance assembly,
`cov = np.multiply(cor, u.flatten()[:, None] * u.flatten()[None, :])`
(lines 155 and 213 of `intercorr.py`); `u` is the already-flattened
uncertainty vector. -/
def covOf (cor : Mat) (u : List ℚ) : Except String Mat :=
  npMultiply cor (outerFlat u)

/-- The block assignment
`trafo[k*Nwave:(k+1)*Nwave, l*Nwave:(l+1)*Nwave] = np.diag(np.ones(Nwave))*t3mat[k, l]`:
inside the target window the entry becomes `v` on the window's diagonal and
`0` off it; everything else is untouched. -/
def setBlock (Nwave k l : Nat) (v : ℚ) (M : Mat) : Mat :=
  { M with entry := fun i j =>
      if k * Nwave ≤ i ∧ i < k * Nwave + Nwave ∧ l * Nwave ≤ j ∧ j < l * Nwave + Nwave then
        (if i - k * Nwave = j - l * Nwave then v else 0)
      else M.entry i j }

/-- The inner `for l in range(Nbase)` loop of `add_t3cov`, filling row-block
`k` of `trafo`. -/
def fillRow (Nwave : Nat) (t3mat : Mat) (k : Nat) (M : Mat) : Mat :=
  (List.range t3mat.cols).foldl (fun M l => setBlock Nwave k l (t3mat.entry k l) M) M

/-- `trafo`: start from `np.zeros((Nwave*Ntria, Nwave*Nbase))` and run the
double loop over triangles `k` and baselines `l` (lines 204-207). -/
def trafo (Nwave : Nat) (t3mat : Mat) : Mat :=
  (List.range t3mat.rows).foldl (fun M k => fillRow Nwave t3mat k M)
    ⟨Nwave * t3mat.rows, Nwave * t3mat.cols, fun _ _ => 0⟩

/-- The closure-triangle correlation matrix,
`cor = np.dot(trafo, np.dot(np.diag(np.ones(Nwave*Nbase)), trafo.T))/3.`
(line 209). -/
def t3cor (Nwave : Nat) (t3mat : Mat) : Mat :=
  matDiv (npDot (trafo Nwave t3mat) (npDot (diagOnes (Nwave * t3mat.cols)) (npT (trafo Nwave t3mat)))) 3

/-- The visibility-amplitude correlation matrix,
`cor = np.diag(np.ones(Nwave*Nbase))` (line 151). -/
def vis2cor (Nwave Nbase : Nat) : Mat :=
  diagOnes (Nwave * Nbase)

/-- The per-file exposure loop of `add_vis2cov` (lines 151-157): the
correlation matrix is built once from the file geometry, then each
exposure's flattened `dvis2` is assembled against it, in exposure order. -/
def add_vis2cov_file (Nwave Nbase : Nat) (dvis2s : List (List ℚ)) : List (Except String Mat) :=
  let cor := vis2cor Nwave Nbase
  dvis2s.map (fun u => covOf cor u)

/-- The per-file exposure loop of `add_t3cov` (lines 199-215): `trafo` and
`cor` are built once from the file's `t3mat` and `Nwave`, then each
exposure's flattened `dt3` is assembled against `cor`, in exposure order. -/
def add_t3cov_file (Nwave : Nat) (t3mat : Mat) (dt3s : List (List ℚ)) : List (Except String Mat) :=
  let cor := t3cor Nwave t3mat
  dt3s.map (fun u => covOf cor u)

/-- The entry of an assembled covariance, `none` when the assembly raised. -/
def exceptEntry (r : Except String Mat) (i j : Nat) : Option ℚ :=
  match r with
  | .ok M => some (M.entry i j)
  | .error _ => none

/-- Whether the assembly succeeded. -/
def exceptOk (r : Except String Mat) : Bool :=
  match r with
  | .ok _ => true
  | .error _ => false

/-- The mutable-state skeleton of the `data` object that `add_cov` touches:
only the input directory `self.idir` is assigned in the relevant code. -/
structure DataState where
  idir : String

/-- `add_vis2cov` never assigns `self.idir`: identity on the state. -/
def add_vis2cov_state (s : DataState) : DataState := s

/-- `add_t3cov` never assigns `self.idir`: identity on the state. -/
def add_t3cov_state (s : DataState) : DataState := s

/-- The state effect of `add_cov` (lines 249-254): run `add_vis2cov`, save
`self.idir` to `temp`, point `self.idir` at `odir`, run `add_t3cov`, restore
`self.idir` from `temp`. -/
def add_cov_state (s : DataState) (odir : String) : DataState :=
  let s1 := add_vis2cov_state s
  let temp := s1.idir
  let s2 := add_t3cov_state { s1 with idir := odir }
  { s2 with idir := temp }

/-- The spec's `CorrelationPropagator` contract, written independently of the
code as an entrywise double sum: `C_derived = (T · C · Tᵀ) / norm`. -/
def CorrelationPropagator (C T : Mat) (norm : ℚ) : Mat :=
  ⟨T.rows, T.rows, fun i j =>
    (∑ m in Finset.range C.rows, ∑ n in Finset.range C.cols,
      T.entry i m * C.entry m n * T.entry j n) / norm⟩

lemma foldl_rows_eq (f : Mat → Nat → Mat) (h : ∀ M a, (f M a).rows = M.rows) :
    ∀ (xs : List Nat) (M : Mat), (xs.foldl f M).rows = M.rows := by
  intro xs
  induction xs with
  | nil => intro M; rfl
  | cons x xs ih => intro M; rw [List.foldl_cons, ih, h]

lemma foldl_cols_eq (f : Mat → Nat → Mat) (h : ∀ M a, (f M a).cols = M.cols) :
    ∀ (xs : List Nat) (M : Mat), (xs.foldl f M).cols = M.cols := by
  intro xs
  induction xs with
  | nil => intro M; rfl
  | cons x xs ih => intro M; rw [List.foldl_cons, ih, h]

lemma trafo_rows (Nwave : Nat) (t3mat : Mat) : (trafo Nwave t3mat).rows = Nwave * t3mat.rows := by
  unfold trafo
  rw [foldl_rows_eq]
  intro M a
  unfold fillRow
  rw [foldl_rows_eq]
  intro M b
  rfl

lemma trafo_cols (Nwave : Nat) (t3mat : Mat) : (trafo Nwave t3mat).cols = Nwave * t3mat.cols := by
  unfold trafo
  rw [foldl_cols_eq]
  intro M a
  unfold fillRow
  rw [foldl_cols_eq]
  intro M b
  rfl

lemma blockIdx_unique {Nwave k kk a : Nat} (ha : a < Nwave)
    (h1 : kk * Nwave ≤ k * Nwave + a) (h2 : k * Nwave + a < kk * Nwave + Nwave) : kk = k := by
  rcases Nat.lt_trichotomy kk k with h | h | h
  · exfalso
    have hle : (kk + 1) * Nwave ≤ k * Nwave := Nat.mul_le_mul_right Nwave (Nat.succ_le_of_lt h)
    rw [Nat.succ_mul] at hle
    omega
  · exact h
  · exfalso
    have hle : (k + 1) * Nwave ≤ kk * Nwave := Nat.mul_le_mul_right Nwave (Nat.succ_le_of_lt h)
    rw [Nat.succ_mul] at hle
    omega

lemma setBlock_entry_in {Nwave k l a b : Nat} (v : ℚ) (M : Mat) (ha : a < Nwave) (hb : b < Nwave) :
    (setBlock Nwave k l v M).entry (k * Nwave + a) (l * Nwave + b) = if a = b then v else 0 := by
  unfold setBlock
  simp only
  rw [if_pos ⟨Nat.le_add_right _ _, by omega, Nat.le_add_right _ _, by omega⟩]
  rw [Nat.add_sub_cancel_left, Nat.add_sub_cancel_left]

lemma setBlock_entry_out {Nwave k l kk ll a b : Nat} (v : ℚ) (M : Mat)
    (h : kk ≠ k ∨ ll ≠ l) (ha : a < Nwave) (hb : b < Nwave) :
    (setBlock Nwave kk ll v M).entry (k * Nwave + a) (l * Nwave + b)
      = M.entry (k * Nwave + a) (l * Nwave + b) := by
  unfold setBlock
  simp only
  rw [if_neg]
  rintro ⟨h1, h2, h3, h4⟩
  rcases h with h | h
  · exact h (blockIdx_unique ha h1 h2)
  · exact h (blockIdx_unique hb h3 h4)

lemma fillRow_entry_ne {Nwave kk k l a b : Nat} (t3mat : Mat) (M : Mat)
    (hk : kk ≠ k) (ha : a < Nwave) (hb : b < Nwave) :
    (fillRow Nwave t3mat kk M).entry (k * Nwave + a) (l * Nwave + b)
      = M.entry (k * Nwave + a) (l * Nwave + b) := by
  unfold fillRow
  generalize List.range t3mat.cols = xs
  induction xs generalizing M with
  | nil => rfl
  | cons x xs ih =>
      rw [List.foldl_cons, ih]
      exact setBlock_entry_out _ _ (Or.inl hk) ha hb

lemma range_foldl_setBlock_entry {Nwave k l a b : Nat} (t3mat : Mat)
    (ha : a < Nwave) (hb : b < Nwave) :
    ∀ (n : Nat) (M : Mat), l < n →
      ((List.range n).foldl (fun M ll => setBlock Nwave k ll (t3mat.entry k ll) M) M).entry
          (k * Nwave + a) (l * Nwave + b)
        = if a = b then t3mat.entry k l else 0 := by
  intro n
  induction n with
  | zero => intro M h; omega
  | succ n ih =>
      intro M h
      rw [List.range_succ, List.foldl_append, List.foldl_cons, List.foldl_nil]
      by_cases hl : l < n
      · rw [setBlock_entry_out _ _ (Or.inr (by omega)) ha hb, ih M hl]
      · have hln : l = n := by omega
        subst hln
        exact setBlock_entry_in _ _ ha hb

lemma fillRow_entry_eq {Nwave k l a b : Nat} (t3mat : Mat) (M : Mat)
    (hl : l < t3mat.cols) (ha : a < Nwave) (hb : b < Nwave) :
    (fillRow Nwave t3mat k M).entry (k * Nwave + a) (l * Nwave + b)
      = if a = b then t3mat.entry k l else 0 := by
  unfold fillRow
  exact range_foldl_setBlock_entry t3mat ha hb t3mat.cols M hl

lemma trafo_entry {Nwave k l a b : Nat} (t3mat : Mat)
    (hk : k < t3mat.rows) (hl : l < t3mat.cols) (ha : a < Nwave) (hb : b < Nwave) :
    (trafo Nwave t3mat).entry (k * Nwave + a) (l * Nwave + b)
      = if a = b then t3mat.entry k l else 0 := by
  unfold trafo
  have main : ∀ (n : Nat) (M : Mat), k < n →
      ((List.range n).foldl (fun M kk => fillRow Nwave t3mat kk M) M).entry
          (k * Nwave + a) (l * Nwave + b)
        = if a = b then t3mat.entry k l else 0 := by
    intro n
    induction n with
    | zero => intro M h; omega
    | succ n ih =>
        intro M h
        rw [List.range_succ, List.foldl_append, List.foldl_cons, List.foldl_nil]
        by_cases hkn : k < n
        · rw [fillRow_entry_ne t3mat _ (by omega) ha hb, ih M hkn]
        · have hkk : k = n := by omega
          subst hkk
          exact fillRow_entry_eq t3mat _ hl ha hb
  exact main t3mat.rows _ hk

lemma sum_range_add_split (f : Nat → ℚ) (n m : Nat) :
    ∑ i in Finset.range (n + m), f i
      = (∑ i in Finset.range n, f i) + ∑ j in Finset.range m, f (n + j) := by
  induction m with
  | zero => simp
  | succ m ih =>
      rw [Nat.add_succ, Finset.sum_range_succ, ih, Finset.sum_range_succ]
      ring

lemma sum_range_mul_split (f : Nat → ℚ) (Nwave Nbase : Nat) :
    ∑ m in Finset.range (Nwave * Nbase), f m
      = ∑ l in Finset.range Nbase, ∑ c in Finset.range Nwave, f (l * Nwave + c) := by
  induction Nbase with
  | zero => simp
  | succ Nbase ih =>
      rw [Nat.mul_succ, sum_range_add_split, ih, Finset.sum_range_succ]
      congr 1
      apply Finset.sum_congr rfl
      intro c _
      rw [Nat.mul_comm]

lemma trafo_entry_col {Nwave k m : Nat} {a : Nat} (t3mat : Mat)
    (hk : k < t3mat.rows) (ha : a < Nwave) (hm : m < Nwave * t3mat.cols) :
    (trafo Nwave t3mat).entry (k * Nwave + a) m
      = if a = m % Nwave then t3mat.entry k (m / Nwave) else 0 := by
  have hNw : 0 < Nwave := Nat.lt_of_le_of_lt (Nat.zero_le a) ha
  have hml : m / Nwave < t3mat.cols := by
    rw [Nat.div_lt_iff_lt_mul hNw, Nat.mul_comm]
    exact hm
  have hmod : m % Nwave < Nwave := Nat.mod_lt _ hNw
  conv_lhs => rw [show m = (m / Nwave) * Nwave + m % Nwave by
    rw [Nat.mul_comm]
    exact (Nat.div_add_mod m Nwave).symm]
  exact trafo_entry t3mat hk hml ha hmod

lemma t3cor_entry (Nwave : Nat) (t3mat : Mat) (i j : Nat) :
    (t3cor Nwave t3mat).entry i j
      = (∑ m in Finset.range (Nwave * t3mat.cols),
          (trafo Nwave t3mat).entry i m * (trafo Nwave t3mat).entry j m) / 3 := by
  unfold t3cor matDiv npDot npT diagOnes
  simp only
  rw [trafo_cols]
  congr 1
  apply Finset.sum_congr rfl
  intro m hm
  congr 1
  have hmem : m ∈ Finset.range (Nwave * t3mat.cols) := hm
  calc ∑ n in Finset.range (Nwave * t3mat.cols),
        (if m = n then (1 : ℚ) else 0) * (trafo Nwave t3mat).entry j n
      = ∑ n in Finset.range (Nwave * t3mat.cols),
          (if m = n then (trafo Nwave t3mat).entry j n else 0) := by
        apply Finset.sum_congr rfl
        intro n _
        by_cases h : m = n <;> simp [h]
    _ = (trafo Nwave t3mat).entry j m := by
        rw [Finset.sum_ite_eq]
        simp [hmem]

lemma t3cor_diag (Nwave : Nat) (t3mat : Mat) (k a : Nat)
    (hk : k < t3mat.rows) (ha : a < Nwave) :
    (t3cor Nwave t3mat).entry (k * Nwave + a) (k * Nwave + a)
      = (∑ l in Finset.range t3mat.cols, (t3mat.entry k l) ^ 2) / 3 := by
  rw [t3cor_entry]
  congr 1
  rw [sum_range_mul_split]
  apply Finset.sum_congr rfl
  intro l hl
  have hlc : l < t3mat.cols := Finset.mem_range.mp hl
  calc ∑ c in Finset.range Nwave,
        (trafo Nwave t3mat).entry (k * Nwave + a) (l * Nwave + c) *
          (trafo Nwave t3mat).entry (k * Nwave + a) (l * Nwave + c)
      = ∑ c in Finset.range Nwave, (if a = c then (t3mat.entry k l) ^ 2 else 0) := by
        apply Finset.sum_congr rfl
        intro c hc
        rw [trafo_entry t3mat hk hlc ha (Finset.mem_range.mp hc)]
        by_cases h : a = c <;> simp [h, sq]
    _ = (t3mat.entry k l) ^ 2 := by
        rw [Finset.sum_ite_eq]
        simp [Finset.mem_range.mpr ha]

lemma covOf_entry (cor : Mat) (u : List ℚ) (i j : Nat)
    (h1 : cor.rows = u.length) (h2 : cor.cols = u.length)
    (hi : i < u.length) (hj : j < u.length) :
    exceptEntry (covOf cor u) i j = some (cor.entry i j * (u.getD i 0 * u.getD j 0)) := by
  unfold covOf npMultiply outerFlat exceptEntry
  simp only [h1, h2]
  rw [show bcastDim u.length u.length = some u.length from by unfold bcastDim; simp]
  simp only
  by_cases hone : u.length = 1
  · have hi0 : i = 0 := by omega
    have hj0 : j = 0 := by omega
    subst hi0
    subst hj0
    simp [bcastIdx, hone]
  · simp [bcastIdx, hone]

lemma t3cor_rows (Nwave : Nat) (t3mat : Mat) :
    (t3cor Nwave t3mat).rows = Nwave * t3mat.rows :=
  trafo_rows Nwave t3mat

lemma t3cor_cols (Nwave : Nat) (t3mat : Mat) :
    (t3cor Nwave t3mat).cols = Nwave * t3mat.rows :=
  trafo_rows Nwave t3mat

lemma flat_index_lt {Nwave rows k a : Nat} (hk : k < rows) (ha : a < Nwave) :
    k * Nwave + a < Nwave * rows := by
  have h1 : (k + 1) * Nwave ≤ rows * Nwave := Nat.mul_le_mul_right _ (by omega)
  rw [Nat.succ_mul] at h1
  rw [Nat.mul_comm Nwave rows]
  omega

lemma getD_map_cov (f : List ℚ → Except String Mat) (xs : List (List ℚ)) (j : Nat)
    (hj : j < xs.length) :
    (xs.map f).getD j (.error "") = f (xs.getD j []) := by
  induction xs generalizing j with
  | nil => simp at hj
  | cons x xs ih =>
      cases j with
      | zero => rfl
      | succ j =>
          rw [List.map_cons, List.getD_cons_succ, List.getD_cons_succ]
          exact ih j (by simpa using hj)

/-- C6: for every `n ≥ 1` the baseline correlation model
`cor = np.diag(np.ones(n))` is the `n×n` identity matrix: in-range entry
`(i, j)` is `1` when `i = j` and `0` otherwise. -/
theorem diagOnes_identity (n i j : Nat) (hn : 1 ≤ n) (hi : i < n) (hj : j < n) :
    ((diagOnes n).rows = n ∧ (diagOnes n).cols = n) ∧
    (diagOnes n).entry i j = if i = j then 1 else 0 :=
  ⟨⟨rfl, rfl⟩, rfl⟩

/-- Witness for C6 at `n = 3`, `i = 1`, `j = 2`. -/
theorem diagOnes_identity_witness :
    ((diagOnes 3).rows = 3 ∧ (diagOnes 3).cols = 3) ∧
    (diagOnes 3).entry 1 2 = if 1 = 2 then 1 else 0 :=
  diagOnes_identity 3 1 2 (by decide) (by decide) (by decide)

/-- C3: for `Nwave ≥ 1` and any incidence matrix, `trafo` has shape
`(Nwave·Ntria, Nwave·Nbase)` and its `Nwave×Nwave` sub-block at block
position `(k, l)` is `t3mat[k, l]` times the identity: the entry at
`(k·Nwave+a, l·Nwave+b)` is `t3mat[k, l] · δ_{ab}`, so cross-channel
entries are never produced. -/
theorem trafo_block_structure (Nwave : Nat) (t3mat : Mat) (k l a b : Nat)
    (hNw : 1 ≤ Nwave) (hk : k < t3mat.rows) (hl : l < t3mat.cols)
    (ha : a < Nwave) (hb : b < Nwave) :
    ((trafo Nwave t3mat).rows = Nwave * t3mat.rows ∧
     (trafo Nwave t3mat).cols = Nwave * t3mat.cols) ∧
    (trafo Nwave t3mat).entry (k * Nwave + a) (l * Nwave + b)
      = t3mat.entry k l * (if a = b then 1 else 0) := by
  refine ⟨⟨trafo_rows _ _, trafo_cols _ _⟩, ?_⟩
  rw [trafo_entry t3mat hk hl ha hb]
  by_cases h : a = b <;> simp [h]

/-- Witness for C3 at `Nwave = 2`, a `2×3` all-ones incidence matrix,
block `(1, 2)`, offsets `(0, 1)`. -/
theorem trafo_block_structure_witness :
    ((trafo 2 ⟨2, 3, fun _ _ => 1⟩).rows = 2 * (⟨2, 3, fun _ _ => 1⟩ : Mat).rows ∧
     (trafo 2 ⟨2, 3, fun _ _ => 1⟩).cols = 2 * (⟨2, 3, fun _ _ => 1⟩ : Mat).cols) ∧
    (trafo 2 ⟨2, 3, fun _ _ => 1⟩).entry (1 * 2 + 0) (2 * 2 + 1)
      = (⟨2, 3, fun _ _ => 1⟩ : Mat).entry 1 2 * (if 0 = 1 then 1 else 0) :=
  trafo_block_structure 2 ⟨2, 3, fun _ _ => 1⟩ 1 2 0 1 (by decide) (by decide) (by decide)
    (by decide) (by decide)

/-- C4, counterexample: the claim says building the transform with
`Nwave = 0` fails with `InvalidDimension`; the code performs no dimension
check and `trafo` simply returns the empty `0×0` array. -/
theorem trafo_nwave_zero_cx :
    (trafo 0 ⟨1, 3, fun _ _ => 1⟩).rows = 0 ∧ (trafo 0 ⟨1, 3, fun _ _ => 1⟩).cols = 0 := by
  constructor <;> decide

/-- C4, amended: the transform builder validates nothing; for every
`Nwave` and incidence matrix — including `Nwave = 0`, zero triangles or
zero baselines — it returns a transform of shape
`(Nwave·Ntria, Nwave·Nbase)` rather than raising. -/
theorem trafo_no_dimension_check (Nwave : Nat) (t3mat : Mat) :
    (trafo Nwave t3mat).rows = Nwave * t3mat.rows ∧
    (trafo Nwave t3mat).cols = Nwave * t3mat.cols :=
  ⟨trafo_rows _ _, trafo_cols _ _⟩

/-- C9: in the propagated triangle correlation every entry that couples two
different wavelength offsets `a ≠ b` vanishes: the entry at
`(k·Nwave+a, l·Nwave+b)` is `0`. -/
theorem t3cor_cross_channel_zero (Nwave : Nat) (t3mat : Mat) (k l a b : Nat)
    (hk : k < t3mat.rows) (hl : l < t3mat.rows) (ha : a < Nwave) (hb : b < Nwave)
    (hab : a ≠ b) :
    (t3cor Nwave t3mat).entry (k * Nwave + a) (l * Nwave + b) = 0 := by
  rw [t3cor_entry]
  have hz : (∑ m in Finset.range (Nwave * t3mat.cols),
      (trafo Nwave t3mat).entry (k * Nwave + a) m *
        (trafo Nwave t3mat).entry (l * Nwave + b) m) = 0 := by
    apply Finset.sum_eq_zero
    intro m hm
    have hmr := Finset.mem_range.mp hm
    rw [trafo_entry_col t3mat hk ha hmr, trafo_entry_col t3mat hl hb hmr]
    by_cases h : a = m % Nwave
    · have hbm : ¬ b = m % Nwave := fun hbm => hab (by rw [h, ← hbm])
      rw [if_neg hbm, mul_zero]
    · rw [if_neg h, zero_mul]
  rw [hz]
  exact zero_div 3

/-- Witness for C9 at `Nwave = 2`, a `2×3` all-ones incidence matrix,
triangles `(0, 1)`, wavelength offsets `(0, 1)`. -/
theorem t3cor_cross_channel_zero_witness :
    (t3cor 2 ⟨2, 3, fun _ _ => 1⟩).entry (0 * 2 + 0) (1 * 2 + 1) = 0 :=
  t3cor_cross_channel_zero 2 ⟨2, 3, fun _ _ => 1⟩ 0 1 0 1 (by decide) (by decide) (by decide)
    (by decide) (by decide)

/-- C10: `add_cov` leaves `self.idir` as it found it — it is temporarily
pointed at the output directory for the `add_t3cov` sub-step and restored
afterwards. -/
theorem add_cov_restores_idir (s : DataState) (odir : String) :
    (add_cov_state s odir).idir = s.idir ∧
    ({ add_vis2cov_state s with idir := odir } : DataState).idir = odir :=
  ⟨rfl, rfl⟩

/-- C2: the correlation matrix `add_t3cov` computes on line 209 is exactly
the spec's propagation formula `(T · C_base · Tᵗ) / norm` applied to the
base correlation the engine uses (the identity on the flattened baseline
space) with the normalization constant `norm = 3`. -/
theorem t3cor_eq_propagator (Nwave : Nat) (t3mat : Mat) :
    t3cor Nwave t3mat
      = CorrelationPropagator (diagOnes (Nwave * t3mat.cols)) (trafo Nwave t3mat) 3 := by
  have hrows : (t3cor Nwave t3mat).rows
      = (CorrelationPropagator (diagOnes (Nwave * t3mat.cols)) (trafo Nwave t3mat) 3).rows := rfl
  have hcols : (t3cor Nwave t3mat).cols
      = (CorrelationPropagator (diagOnes (Nwave * t3mat.cols)) (trafo Nwave t3mat) 3).cols := rfl
  refine Mat.ext hrows hcols ?_
  funext i j
  rw [t3cor_entry]
  unfold CorrelationPropagator diagOnes
  simp only
  congr 1
  apply Finset.sum_congr rfl
  intro m hm
  calc (trafo Nwave t3mat).entry i m * (trafo Nwave t3mat).entry j m
      = ∑ n in Finset.range (Nwave * t3mat.cols),
          (if m = n then (trafo Nwave t3mat).entry i m * (trafo Nwave t3mat).entry j n else 0) := by
        rw [Finset.sum_ite_eq]
        simp [hm]
    _ = ∑ n in Finset.range (Nwave * t3mat.cols),
          (trafo Nwave t3mat).entry i m * (if m = n then (1 : ℚ) else 0) *
            (trafo Nwave t3mat).entry j n := by
        apply Finset.sum_congr rfl
        intro n _
        by_cases h : m = n <;> simp [h]

/-- C1, counterexample: with the single-triangle incidence matrix
`[[1, 1]]` (two baselines), `Nwave = 1` and uncertainty vector `[1]`, the
engine's triangle covariance has `Cov[0][0] = 2/3`, not
`u[0]² = 1` — the diagonal-is-variance invariant fails for the propagated
triangle correlation. -/
theorem t3cov_diag_cx :
    exceptEntry (covOf (t3cor 1 ⟨1, 2, fun _ _ => 1⟩) [1]) 0 0 = some (2 / 3) ∧
    ((2 : ℚ) / 3) ≠ ((1 : ℚ)) ^ 2 := by
  constructor
  · simp [exceptEntry, covOf, npMultiply, bcastDim, bcastIdx, outerFlat, t3cor, matDiv, npDot,
      npT, diagOnes, trafo, fillRow, setBlock, List.range_succ, Finset.sum_range_succ]
    norm_num
  · norm_num

/-- C1, amended: the assembled covariance satisfies
`Cov[i][i] = C[i][i]·u[i]²`.  For the identity correlation of the baseline
observables this is `u[i]²` exactly; for the propagated triangle
correlation it is `u[i]²` exactly when the squared coefficients of the
`i`-th triangle's incidence row sum to `3` (as for a three-baseline
closure triangle with unit-magnitude coefficients), and in general it is
`(∑_l t3mat[k,l]²)/3 · u[i]²`. -/
theorem cov_diag_variance (n : Nat) (uI : List ℚ) (iI : Nat)
    (Nwave : Nat) (t3mat : Mat) (u : List ℚ) (k a : Nat)
    (hI1 : uI.length = n) (hI2 : iI < n)
    (hu : u.length = Nwave * t3mat.rows) (hk : k < t3mat.rows) (ha : a < Nwave)
    (hssq : ∑ l in Finset.range t3mat.cols, (t3mat.entry k l) ^ 2 = 3) :
    exceptEntry (covOf (diagOnes n) uI) iI iI = some ((uI.getD iI 0) ^ 2) ∧
    exceptEntry (covOf (t3cor Nwave t3mat) u) (k * Nwave + a) (k * Nwave + a)
      = some ((u.getD (k * Nwave + a) 0) ^ 2) := by
  constructor
  · rw [covOf_entry (diagOnes n) uI iI iI (by rw [hI1]; rfl) (by rw [hI1]; rfl)
      (by omega) (by omega)]
    simp [diagOnes, sq]
  · have hib : k * Nwave + a < u.length := by
      rw [hu]
      exact flat_index_lt hk ha
    rw [covOf_entry (t3cor Nwave t3mat) u _ _ (by rw [t3cor_rows, hu]) (by rw [t3cor_cols, hu])
      hib hib]
    rw [t3cor_diag Nwave t3mat k a hk ha, hssq]
    norm_num [sq]

/-- Witness for C1's amended theorem: identity model with `n = 2`,
`u = [1/2, 2]`, `i = 0`; triangle model with `Nwave = 1`, the all-ones
`1×3` incidence matrix (squared row sum `3`) and `u = [5]`. -/
theorem cov_diag_variance_witness :
    exceptEntry (covOf (diagOnes 2) [1 / 2, 2]) 0 0
      = some ((([(1 : ℚ) / 2, 2].getD 0 0)) ^ 2) ∧
    exceptEntry (covOf (t3cor 1 ⟨1, 3, fun _ _ => 1⟩) [5]) (0 * 1 + 0) (0 * 1 + 0)
      = some ((([(5 : ℚ)].getD (0 * 1 + 0) 0)) ^ 2) :=
  cov_diag_variance 2 [1 / 2, 2] 0 1 ⟨1, 3, fun _ _ => 1⟩ [5] 0 0 rfl (by decide) rfl
    (by decide) (by decide) (by norm_num [Finset.sum_range_succ])

/-- C5, counterexample: the claim says any flattened length different from
the correlation size fails; but numpy broadcasting accepts a length-1
vector against a `4×4` correlation, so the assembly succeeds although
`1 ≠ 4`. -/
theorem covOf_broadcast_cx :
    exceptOk (covOf (diagOnes 4) [1]) = true ∧ ([(1 : ℚ)].length ≠ (diagOnes 4).rows) := by
  constructor
  · decide
  · decide

/-- C5, amended: assembling a covariance from an `N×N` correlation and a
flattened uncertainty vector of a different length fails (numpy raises a
broadcast error) whenever neither length is `1`; a length-1 operand is
silently broadcast instead. -/
theorem covOf_shape_mismatch_fails (cor : Mat) (u : List ℚ) (N : Nat)
    (h1 : cor.rows = N) (h2 : cor.cols = N)
    (hne : u.length ≠ N) (hu1 : u.length ≠ 1) (hN1 : N ≠ 1) :
    exceptOk (covOf cor u) = false := by
  unfold covOf npMultiply outerFlat
  simp only [h1, h2]
  rw [show bcastDim N u.length = none from by
    unfold bcastDim
    rw [if_neg (Ne.symm hne), if_neg hN1, if_neg hu1]]
  rfl

/-- Witness for C5's amended theorem: correlation of size `4`, uncertainty
vector of length `3`. -/
theorem covOf_shape_mismatch_fails_witness :
    exceptOk (covOf (diagOnes 4) [1, 1, 1]) = false :=
  covOf_shape_mismatch_fails (diagOnes 4) [1, 1, 1] 4 rfl rfl (by decide) (by decide)
    (by decide)

/-- C7: for one file and one observable kind the batch output has exactly
one covariance per exposure, in exposure order, and every exposure is
assembled against the single correlation matrix determined by the file's
geometry (`vis2cor Nwave Nbase`, respectively `t3cor Nwave t3mat`). -/
theorem batch_per_exposure (Nwave Nbase : Nat) (t3mat : Mat)
    (dvis2s dt3s : List (List ℚ)) (jv jt : Nat)
    (hjv : jv < dvis2s.length) (hjt : jt < dt3s.length) :
    ((add_vis2cov_file Nwave Nbase dvis2s).length = dvis2s.length ∧
      (add_vis2cov_file Nwave Nbase dvis2s).getD jv (.error "")
        = covOf (vis2cor Nwave Nbase) (dvis2s.getD jv [])) ∧
    ((add_t3cov_file Nwave t3mat dt3s).length = dt3s.length ∧
      (add_t3cov_file Nwave t3mat dt3s).getD jt (.error "")
        = covOf (t3cor Nwave t3mat) (dt3s.getD jt [])) := by
  refine ⟨⟨?_, ?_⟩, ⟨?_, ?_⟩⟩
  · simp [add_vis2cov_file]
  · exact getD_map_cov _ dvis2s jv hjv
  · simp [add_t3cov_file]
  · exact getD_map_cov _ dt3s jt hjt

/-- Witness for C7: a file with two visibility exposures (`jv = 1`) and one
triangle exposure (`jt = 0`). -/
theorem batch_per_exposure_witness :
    ((add_vis2cov_file 1 1 [[1], [2]]).length = ([[(1 : ℚ)], [2]]).length ∧
      (add_vis2cov_file 1 1 [[1], [2]]).getD 1 (.error "")
        = covOf (vis2cor 1 1) (([[(1 : ℚ)], [2]]).getD 1 [])) ∧
    ((add_t3cov_file 1 ⟨1, 3, fun _ _ => 1⟩ [[3]]).length = ([[(3 : ℚ)]]).length ∧
      (add_t3cov_file 1 ⟨1, 3, fun _ _ => 1⟩ [[3]]).getD 0 (.error "")
        = covOf (t3cor 1 ⟨1, 3, fun _ _ => 1⟩) (([[(3 : ℚ)]]).getD 0 [])) :=
  batch_per_exposure 1 1 ⟨1, 3, fun _ _ => 1⟩ [[1], [2]] [[3]] 1 0 (by decide) (by decide)

/-- C8: the propagation formula `(T · C · Tᵗ)/norm` returns a symmetric
matrix whenever the base correlation `C` is symmetric, and the assembled
covariance `C ⊙ (u uᵗ)` is symmetric whenever the correlation `C` is. -/
theorem symmetry_preserved (C T : Mat) (norm : ℚ) (cor : Mat) (u : List ℚ) (i j : Nat)
    (hC : ∀ m n, C.entry m n = C.entry n m) (hsq : C.rows = C.cols)
    (hcor : ∀ m n, cor.entry m n = cor.entry n m)
    (h1 : cor.rows = u.length) (h2 : cor.cols = u.length)
    (hi : i < u.length) (hj : j < u.length) :
    (CorrelationPropagator C T norm).entry i j
      = (CorrelationPropagator C T norm).entry j i ∧
    exceptEntry (covOf cor u) i j = exceptEntry (covOf cor u) j i := by
  constructor
  · unfold CorrelationPropagator
    simp only
    congr 1
    rw [hsq, Finset.sum_comm]
    apply Finset.sum_congr rfl
    intro m _
    apply Finset.sum_congr rfl
    intro n _
    rw [hC n m]
    ring
  · rw [covOf_entry cor u i j h1 h2 hi hj, covOf_entry cor u j i h1 h2 hj hi, hcor i j]
    congr 1
    ring

/-- Witness for C8: symmetric base `C = I₂`, transform `T = I₂`, `norm = 3`,
correlation `I₂`, `u = [1/2, 3]`, entry pair `(0, 1)`. -/
theorem symmetry_preserved_witness :
    (CorrelationPropagator (diagOnes 2) (diagOnes 2) 3).entry 0 1
      = (CorrelationPropagator (diagOnes 2) (diagOnes 2) 3).entry 1 0 ∧
    exceptEntry (covOf (diagOnes 2) [1 / 2, 3]) 0 1
      = exceptEntry (covOf (diagOnes 2) [1 / 2, 3]) 1 0 :=
  symmetry_preserved (diagOnes 2) (diagOnes 2) 3 (diagOnes 2) [1 / 2, 3] 0 1
    (by
      intro m n
      unfold diagOnes
      simp only
      by_cases h : m = n
      · rw [if_pos h, if_pos h.symm]
      · rw [if_neg h, if_neg (fun hh => h hh.symm)])
    rfl
    (by
      intro m n
      unfold diagOnes
      simp only
      by_cases h : m = n
      · rw [if_pos h, if_pos h.symm]
      · rw [if_neg h, if_neg (fun hh => h hh.symm)])
    rfl rfl (by decide) (by decide)
